import Mathlib

/-!
Verification development for the atlas acoustic-fingerprinting program.

The Rust sources are shallowly embedded:

* `src/hash.rs` — target-zone pair enumeration (`close_pairs`, `scan_target`)
  with the two float-to-usize bounds hoisted into `timeBound` / `freqBound`.
  Machine `f32` arithmetic is modelled by exact rational arithmetic; the
  Rust cast `as usize` (truncation toward zero, saturating at 0 for
  negative values) is `usizeCast = Nat.floor`.
* `src/audio_ops.rs` — `read_wav_to_fft`: windowing with hop = window size
  (`windowsOf`, `stepBy`), an opaque length-preserving per-row transform in
  place of the numeric FFT, and the slice to the first `w/2 + 1` bins.
  Decoding (the hound library) is modelled by an `Option` input: `none`
  stands for a file that is not interpretable as 16-bit PCM.
  `FftResult.panic` marks the division by zero that the source hits in its
  diagnostic print when `skip_size = 0`; `FftResult.err` marks a returned
  `anyhow::Error` (ndarray `stack` on an empty window list).
* `src/image_ops.rs` — `get_square`, `max_filter`, `find_equal` over a
  spectrogram modelled as a `Grid` (dimensions plus a value function).
* `src/database.rs` and the store side of `src/main.rs` — the SQLite
  behaviour itself is not part of the repository, so the relational
  operations are modelled from the spec (see the individual doc comments);
  the control flow around them (`add_track`, the delete-then-insert
  transaction of `add_file`, the scoring loop of `match_sample`) follows
  the Rust source.
* `src/main.rs` — peak filtering (`max_peak_locations`) and the matcher
  (`trackOffsets`, `binsOf`, `maxByKeyLast`, `match_sample`).  The Rust
  `HashMap` iteration order is unspecified; order-sensitive statements are
  therefore parameterised by an arbitrary enumeration of the histogram
  (`validEnum`), while the executable `match_sample` uses the
  insertion-ordered histogram `binsOf`.
-/

/-- Rust `as usize` applied to a non-negative float value, modelled on ℚ:
truncation toward zero, saturating at 0 for negative inputs — exactly
`Nat.floor` on rationals. -/
def usizeCast (q : ℚ) : ℕ := ⌊q⌋₊

/-! ## hash.rs — target-zone pair enumeration -/

/-- Time bound of the target zone, from `fingerprint` in `src/hash.rs`:
`(target_zone_delay_sec / window_length + target_zone_width_sec / window_length) as usize`. -/
def timeBound (windowLength delaySec widthSec : ℚ) : ℕ :=
  usizeCast (delaySec / windowLength + widthSec / windowLength)

/-- Frequency bound of the target zone, from `fingerprint` in `src/hash.rs`:
`((target_zone_height_hz / frequency_resolution) / 2.) as usize` with
`frequency_resolution = 1 / window_length`. -/
def freqBound (windowLength heightHz : ℚ) : ℕ :=
  usizeCast ((heightHz / (1 / windowLength)) / 2)

/-- Inner loop of `fingerprint` in `src/hash.rs`: scan the peaks after the
anchor `a`; break once `loc_b.0 - loc_a.0` exceeds the time bound, emit the
pair when the frequency distance `loc_b.1.abs_diff(loc_a.1)` is below the
frequency bound.  A peak is `(t, k)` = (window index, frequency bin). -/
def scan_target (tB fB : ℕ) (a : ℕ × ℕ) : List (ℕ × ℕ) → List ((ℕ × ℕ) × (ℕ × ℕ))
  | [] => []
  | b :: bs =>
    if tB < b.1 - a.1 then []
    else if Nat.dist b.2 a.2 < fB then (a, b) :: scan_target tB fB a bs
    else scan_target tB fB a bs

/-- Outer loop of `fingerprint` in `src/hash.rs`: every peak in turn is the
anchor, scanning only the peaks that follow it in the list. -/
def close_pairs (tB fB : ℕ) : List (ℕ × ℕ) → List ((ℕ × ℕ) × (ℕ × ℕ))
  | [] => []
  | a :: rest => scan_target tB fB a rest ++ close_pairs tB fB rest

/-- The pair-enumeration stage of `fingerprint` in `src/hash.rs`, with the
two bounds computed from the analysis parameters as in the source. -/
def fingerprintPairs (peaks : List (ℕ × ℕ))
    (windowLength delaySec heightHz widthSec : ℚ) : List ((ℕ × ℕ) × (ℕ × ℕ)) :=
  close_pairs (timeBound windowLength delaySec widthSec)
    (freqBound windowLength heightHz) peaks

/-! ## audio_ops.rs — STFT stage -/

/-- All contiguous windows of length `w` (ndarray `windows(Dim(w))`):
empty when `w` exceeds the sample count. -/
def windowsOf (l : List ℚ) (w : ℕ) : List (List ℚ) :=
  (List.range (l.length + 1 - w)).map (fun i => (l.drop i).take w)

/-- Helper for `stepBy`: `c` counts down to the next element to keep. -/
def stepByAux {α : Type} (k : ℕ) : ℕ → List α → List α
  | _, [] => []
  | 0, a :: rest => a :: stepByAux k (k - 1) rest
  | c + 1, _ :: rest => stepByAux k c rest

/-- Iterator `step_by(k)`: keep the first element, then every `k`-th. -/
def stepBy {α : Type} (l : List α) (k : ℕ) : List α := stepByAux k 0 l

/-- Outcome of the STFT stage.  `err` is a returned `anyhow::Error`,
`panic` a Rust panic (here: the division by zero in the diagnostic
`println!` when `skip_size = 0`). -/
inductive FftResult where
  | ok (spec : List (List ℚ))
  | err
  | panic
deriving DecidableEq

/-- Core of `read_wav_to_fft` in `src/audio_ops.rs` after the window size
has been computed: `skip_size = window_size`; with `skip_size = 0` the
source divides by zero in its diagnostic print (panic); the windows are
stacked (an empty window list makes ndarray `stack` return an error which
`?` propagates); each window goes through the FFT in place and is then
sliced to its first `window_size / 2 + 1` bins.  The numeric FFT is an
opaque parameter `fft`; the source transform is in place, hence
length-preserving. -/
def stftCore (samples : List ℚ) (windowSize : ℕ) (fft : List ℚ → List ℚ) : FftResult :=
  if windowSize = 0 then .panic
  else if stepBy (windowsOf samples windowSize) windowSize = [] then .err
  else .ok ((stepBy (windowsOf samples windowSize) windowSize).map
    fun frame => (fft frame).take (windowSize / 2 + 1))

/-- Window size from `src/audio_ops.rs`:
`(sample_rate as f32 * window_length) as usize`. -/
def windowSizeOf (sampleRate : ℕ) (windowLength : ℚ) : ℕ :=
  usizeCast ((sampleRate : ℚ) * windowLength)

/-- `read_wav_to_fft` from `src/audio_ops.rs`.  `decoded = none` models a
file whose samples are not interpretable as 16-bit PCM (the collect of
`wav.samples::<i16>()` fails and the error is returned). -/
def read_wav_to_fft (decoded : Option (List ℚ)) (sampleRate : ℕ)
    (windowLength : ℚ) (fft : List ℚ → List ℚ) : FftResult :=
  match decoded with
  | none => .err
  | some samples => stftCore samples (windowSizeOf sampleRate windowLength) fft

/-! ## image_ops.rs — max filter and peak coincidence -/

/-- A spectrogram: an `Array2<f32>` modelled as its dimensions plus a
total value function (only indices below the dimensions are ever read). -/
structure Grid where
  rows : ℕ
  cols : ℕ
  val : ℕ → ℕ → ℚ

/-- Inclusive index range `lo..=hi` as a list. -/
def rangeIncl (lo hi : ℕ) : List ℕ :=
  (List.range (hi + 1 - lo)).map (fun i => lo + i)

/-- Maximum of a non-empty list of values, as ndarray-stats `max` computes
it on a slice (the empty case is never reached at the call sites). -/
def listMax : List ℚ → ℚ
  | [] => 0
  | a :: l => l.foldl max a

/-- `get_square` from `src/image_ops.rs`: the values of the slice
`min_y..=max_y, min_x..=max_x` where
`min_x = if x < width/2 then 0 else x - width/2` (ℕ subtraction),
`max_x = min (x + width/2) (cols - 1)`, and analogously for `y`. -/
def get_square (g : Grid) (x y width : ℕ) : List ℚ :=
  let minX := x - width / 2
  let maxX := min (x + width / 2) (g.cols - 1)
  let minY := y - width / 2
  let maxY := min (y + width / 2) (g.rows - 1)
  (rangeIncl minY maxY).flatMap (fun y2 => (rangeIncl minX maxX).map (fun x2 => g.val y2 x2))

/-- `max_filter` from `src/image_ops.rs`: every cell becomes the maximum of
its kernel-sized clamped square. -/
def max_filter (g : Grid) (kernelSize : ℕ) : Grid :=
  { rows := g.rows, cols := g.cols,
    val := fun y x => listMax (get_square g x y kernelSize) }

/-- `find_equal` from `src/image_ops.rs`: row-major locations `(y, x)` of
`array_a` at which `array_b` holds an equal value. -/
def find_equal (a b : Grid) : List (ℕ × ℕ) :=
  (List.range a.rows).flatMap (fun y =>
    (List.range a.cols).filterMap (fun x =>
      if b.val y x = a.val y x then some (y, x) else none))

/-- Peak extraction as composed in `add_file` / `match_sample` in
`src/main.rs`: coincidence of the spectrogram with its max filter, then the
magnitude-threshold filter `S[loc] > magnitude_threshold`. -/
def max_peak_locations (g : Grid) (kernelSize : ℕ) (threshold : ℚ) : List (ℕ × ℕ) :=
  (find_equal g (max_filter g kernelSize)).filter
    (fun loc => threshold < g.val loc.1 loc.2)

/-- Written from the claim, for comparison with the code: the values of the
kernel-sized window centered at `(t, c)`, rows clamped to
`[max(0, t - ks/2), min(rows - 1, t + ks/2)]` (truncated, not reflected)
and columns likewise. -/
def specWindowCells (g : Grid) (t c ks : ℕ) : List ℚ :=
  (rangeIncl (t - ks / 2) (min (t + ks / 2) (g.rows - 1))).flatMap (fun r =>
    (rangeIncl (c - ks / 2) (min (c + ks / 2) (g.cols - 1))).map (fun c2 => g.val r c2))

/-- Written from the claim, for comparison with the code: the row-major
cells `(t, k)` whose value equals the maximum of the clamped kernel window
centered there and strictly exceeds the magnitude threshold. -/
def peaksSpec (g : Grid) (ks : ℕ) (thr : ℚ) : List (ℕ × ℕ) :=
  ((List.range g.rows).flatMap (fun t => (List.range g.cols).map (fun c => (t, c)))).filter
    (fun p => g.val p.1 p.2 = listMax (specWindowCells g p.1 p.2 ks) ∧ thr < g.val p.1 p.2)

/-! ## Store — fingerprints and tracks relations -/

/-- Row of the `fingerprints` relation: `(hash, track_time, track_id)`. -/
structure FpRow where
  hash : ℕ
  trackTime : ℕ
  trackId : ℕ
deriving DecidableEq

/-- Modelled from the spec: SQLite `DELETE FROM fingerprints WHERE
track_id = ?` — the engine itself is outside the repository; the spec
states that every fingerprint row with the given track id is deleted. -/
def deleteTrackRows (db : List FpRow) (tid : ℕ) : List FpRow :=
  db.filter (fun r => r.trackId ≠ tid)

/-- Insert loop of the `add_file` transaction in `src/main.rs`, one
`INSERT` per record in order.  Modelled from the spec: an insert may fail
(persistence I/O); the failure point is the oracle `failAt`, and a failure
aborts the transaction (`none`). -/
def insertRows (tid : ℕ) (failAt : Option ℕ) :
    List (ℕ × ℕ) → ℕ → List FpRow → Option (List FpRow)
  | [], _, acc => some acc
  | r :: rs, i, acc =>
    if failAt = some i then none
    else insertRows tid failAt rs (i + 1) (acc ++ [⟨r.1, r.2, tid⟩])

/-- The fingerprint-replacement transaction of `add_file` in
`src/main.rs`: inside one transaction, delete the track's rows, then
insert each record; commit on success.  Modelled from the spec: a failed
transaction rolls back, so the error carries the unchanged database. -/
def replace_fingerprints (db : List FpRow) (tid : ℕ) (records : List (ℕ × ℕ))
    (failAt : Option ℕ) : Except (List FpRow) (List FpRow) :=
  match insertRows tid failAt records 0 (deleteTrackRows db tid) with
  | some db2 => .ok db2
  | none => .error db

/-- Modelled from the spec: `SELECT rowid FROM tracks WHERE title = ?` —
SQLite returns the first matching row in rowid order, the list order
here.  Titles are an abstract type with decidable equality. -/
def selectTrack {α : Type} [DecidableEq α] (tracks : List (ℕ × α)) (title : α) : Option ℕ :=
  (tracks.find? (fun r => r.2 = title)).map (fun r => r.1)

/-- Modelled from the spec: `INSERT INTO tracks (title) VALUES (?)` plus
`last_insert_rowid` — SQLite assigns the next rowid, one more than the
largest in use. -/
def insertTrack {α : Type} [DecidableEq α] (tracks : List (ℕ × α)) (title : α) :
    List (ℕ × α) × ℕ :=
  let newId := (tracks.map (fun r => r.1)).foldl max 0 + 1
  (tracks ++ [(newId, title)], newId)

/-- `add_track` from `src/database.rs`: query for an existing row with the
title; on a hit return its id and leave the table unchanged, otherwise
insert and return the assigned id. -/
def add_track {α : Type} [DecidableEq α] (tracks : List (ℕ × α)) (title : α) :
    List (ℕ × α) × ℕ :=
  match selectTrack tracks title with
  | some id => (tracks, id)
  | none => insertTrack tracks title

/-! ## main.rs — matcher -/

/-- Lookup in the query fingerprint map `pair_records` (`HashMap<u32,
PairRecord>`), returning the anchor time `time_a`; the map is modelled as
an association list with distinct keys. -/
def qLookup (Q : List (ℕ × ℕ)) (h : ℕ) : Option ℕ :=
  (Q.find? (fun p => p.1 = h)).map (fun p => p.2)

/-- Modelled from the spec: `SELECT DISTINCT track_id FROM fingerprints
WHERE hash IN ...` — each track id owning at least one matching row, in
first-occurrence (rowid) order. -/
def candidateTracks (db : List FpRow) (hashes : List ℕ) : List ℕ :=
  ((db.filter (fun r => r.hash ∈ hashes)).map (fun r => r.trackId)).dedup

/-- Modelled from the spec: `SELECT hash, track_time FROM fingerprints
WHERE track_id = ? AND hash IN ...` — the matching rows in rowid order,
duplicates preserved. -/
def fingerprintRows (db : List FpRow) (tid : ℕ) (hashes : List ℕ) : List FpRow :=
  db.filter (fun r => r.trackId = tid ∧ r.hash ∈ hashes)

/-- Histogram-feeding loop of `match_sample` in `src/main.rs`: for each
returned row look up `sample_time` in the query map (a missing hash is the
`Erroneous hash returned` error, `none` here); record the offset
`track_time - sample_time` exactly when `track_time ≥ sample_time`. -/
def trackOffsets (Q : List (ℕ × ℕ)) : List FpRow → Option (List ℕ)
  | [] => some []
  | r :: rs =>
    match qLookup Q r.hash with
    | none => none
    | some st =>
      match trackOffsets Q rs with
      | none => none
      | some rest => some (if st ≤ r.trackTime then (r.trackTime - st) :: rest else rest)

/-- One `*time_bins.entry(offset).or_insert(0) += 1` step on a histogram
kept as an association list in insertion order. -/
def binsInsert (bins : List (ℕ × ℕ)) (o : ℕ) : List (ℕ × ℕ) :=
  if bins.any (fun p => p.1 = o) then
    bins.map (fun p => if p.1 = o then (p.1, p.2 + 1) else p)
  else bins ++ [(o, 1)]

/-- The time-offset histogram of `match_sample`, with its entries in
insertion order (one concrete realisation of the unspecified `HashMap`
iteration order). -/
def binsOf (offs : List ℕ) : List (ℕ × ℕ) := offs.foldl binsInsert []

/-- Rust `Iterator::max_by_key` on `(offset, count)` entries: the last
entry with the maximal count in iteration order, `none` on an empty
iterator (where the source then panics on `unwrap`). -/
def maxByKeyLast : List (ℕ × ℕ) → Option (ℕ × ℕ)
  | [] => none
  | x :: l => some (l.foldl (fun best y => if best.2 ≤ y.2 then y else best) x)

/-- An enumeration `e` of the histogram over the recorded offsets `offs`
as the Rust `HashMap` could yield it in some iteration order: distinct
keys, exactly the recorded offsets, each paired with its multiplicity. -/
def validEnum (offs : List ℕ) (e : List (ℕ × ℕ)) : Prop :=
  (e.map Prod.fst).Nodup ∧ (∀ o ∈ offs, o ∈ e.map Prod.fst) ∧
    (∀ p ∈ e, p.1 ∈ offs ∧ p.2 = offs.count p.1)

instance validEnum.instDecidable (offs : List ℕ) (e : List (ℕ × ℕ)) :
    Decidable (validEnum offs e) := by
  unfold validEnum; infer_instance

/-- Result of `match_sample` in `src/main.rs`: the per-candidate
`(track_id, best_offset, count)` lines on success, a returned error, or a
panic (the `unwrap` on an empty histogram). -/
inductive MatchResult where
  | ok (scores : List (ℕ × ℕ × ℕ))
  | err
  | panic
deriving DecidableEq

/-- Per-candidate loop of `match_sample` in `src/main.rs`: build the
offset histogram of each candidate in turn; a missing hash returns the
error, an empty histogram panics on `unwrap`; otherwise the candidate
scores `max_by_key` of its bins. -/
def scoreCandidates (db : List FpRow) (Q : List (ℕ × ℕ)) (hashes : List ℕ) :
    List ℕ → MatchResult
  | [] => .ok []
  | tid :: rest =>
    match trackOffsets Q (fingerprintRows db tid hashes) with
    | none => .err
    | some offs =>
      match maxByKeyLast (binsOf offs) with
      | none => .panic
      | some oc =>
        match scoreCandidates db Q hashes rest with
        | .ok scores => .ok ((tid, oc.1, oc.2) :: scores)
        | other => other

/-- `match_sample` from `src/main.rs` (its scoring part): candidate
selection by hash intersection, then per-candidate histogram scoring. -/
def match_sample (db : List FpRow) (Q : List (ℕ × ℕ)) : MatchResult :=
  scoreCandidates db Q (Q.map Prod.fst) (candidateTracks db (Q.map Prod.fst))

/-! ## Shared helper lemmas -/

theorem timeBound_eval_one : timeBound 1 1 1 = 2 := by
  unfold timeBound usizeCast
  rw [Nat.floor_eq_iff] <;> norm_num

theorem freqBound_eval_one : freqBound 1 4 = 2 := by
  unfold freqBound usizeCast
  rw [Nat.floor_eq_iff] <;> norm_num

theorem windowSizeOf_eval_two : windowSizeOf 2 1 = 2 := by
  unfold windowSizeOf usizeCast
  rw [Nat.floor_eq_iff] <;> norm_num

theorem windowSizeOf_eval_three : windowSizeOf 3 1 = 3 := by
  unfold windowSizeOf usizeCast
  rw [Nat.floor_eq_iff] <;> norm_num

theorem windowSizeOf_zero_rate (wl : ℚ) : windowSizeOf 0 wl = 0 := by
  unfold windowSizeOf usizeCast
  norm_num

theorem scan_target_mem {tB fB : ℕ} {a : ℕ × ℕ} {l : List (ℕ × ℕ)}
    {pr : (ℕ × ℕ) × (ℕ × ℕ)} (h : pr ∈ scan_target tB fB a l) :
    pr.1 = a ∧ pr.2 ∈ l ∧ pr.2.1 - a.1 ≤ tB ∧ Nat.dist pr.2.2 a.2 < fB := by
  induction l with
  | nil => simp [scan_target] at h
  | cons b bs ih =>
    unfold scan_target at h
    split at h
    · simp at h
    · rename_i hTime
      split at h
      · rename_i hFreq
        rcases List.mem_cons.mp h with h1 | h1
        · subst h1
          exact ⟨rfl, List.mem_cons_self _ _, by show b.1 - a.1 ≤ tB; omega, hFreq⟩
        · obtain ⟨e1, e2, e3, e4⟩ := ih h1
          exact ⟨e1, List.mem_cons_of_mem _ e2, e3, e4⟩
      · obtain ⟨e1, e2, e3, e4⟩ := ih h
        exact ⟨e1, List.mem_cons_of_mem _ e2, e3, e4⟩

theorem close_pairs_mem {tB fB : ℕ} {peaks : List (ℕ × ℕ)}
    (hs : List.Sorted (fun p q : ℕ × ℕ => p.1 ≤ q.1) peaks)
    {pr : (ℕ × ℕ) × (ℕ × ℕ)} (h : pr ∈ close_pairs tB fB peaks) :
    pr.1.1 ≤ pr.2.1 ∧ pr.2.1 - pr.1.1 ≤ tB ∧ Nat.dist pr.2.2 pr.1.2 < fB := by
  induction peaks with
  | nil => simp [close_pairs] at h
  | cons a rest ih =>
    rw [close_pairs] at h
    rcases List.mem_append.mp h with h1 | h1
    · obtain ⟨e1, e2, e3, e4⟩ := scan_target_mem h1
      have ha := (List.sorted_cons.mp hs).1 _ e2
      subst e1
      exact ⟨ha, e3, e4⟩
    · exact ih (List.sorted_cons.mp hs).2 h1

/-- C1 (amended): for a time-sorted peak list every emitted pair respects
the target-zone bounds, with b.t ≥ a.t rather than the claimed strict
b.t > a.t. -/
theorem fingerprint_target_zone (peaks : List (ℕ × ℕ)) (wl d h w : ℚ)
    (hs : List.Sorted (fun p q : ℕ × ℕ => p.1 ≤ q.1) peaks) :
    ∀ pr ∈ fingerprintPairs peaks wl d h w,
      pr.1.1 ≤ pr.2.1 ∧ pr.2.1 - pr.1.1 ≤ ⌊(d + w) / wl⌋₊ ∧
      Nat.dist pr.2.2 pr.1.2 < ⌊(h / (1 / wl)) / 2⌋₊ := by
  intro pr hpr
  unfold fingerprintPairs at hpr
  have hb : timeBound wl d w = ⌊(d + w) / wl⌋₊ := by
    unfold timeBound usizeCast
    rw [div_add_div_same]
  have hmem := close_pairs_mem hs hpr
  rw [hb] at hmem
  exact hmem

/-- C1 witness: at window_length 1 s, delay 1 s, height 4 Hz, width 1 s,
the sorted peaks (0,0),(1,1) produce the emitted pair ((0,0),(1,1)) and
every emitted pair satisfies the bounds. -/
theorem fingerprint_target_zone_witness :
    ((0, 0), (1, 1)) ∈ fingerprintPairs [(0, 0), (1, 1)] 1 1 4 1 ∧
    ∀ pr ∈ fingerprintPairs [(0, 0), (1, 1)] 1 1 4 1,
      pr.1.1 ≤ pr.2.1 ∧ pr.2.1 - pr.1.1 ≤ ⌊((1 : ℚ) + 1) / 1⌋₊ ∧
      Nat.dist pr.2.2 pr.1.2 < ⌊((4 : ℚ) / (1 / 1)) / 2⌋₊ := by
  constructor
  · unfold fingerprintPairs
    rw [timeBound_eval_one, freqBound_eval_one]
    decide
  · exact fingerprint_target_zone [(0, 0), (1, 1)] 1 1 4 1 (by decide)

/-- C1 counterexample: the sorted peak list (0,0),(0,1) makes the code
emit the pair ((0,0),(0,1)) whose two peaks share the time 0, so the
claimed strict inequality b.t > a.t is false. -/
theorem fingerprint_pair_same_time :
    List.Sorted (fun p q : ℕ × ℕ => p.1 ≤ q.1) [(0, 0), (0, 1)] ∧
    ¬ ∀ pr ∈ fingerprintPairs [(0, 0), (0, 1)] 1 1 4 1, pr.1.1 < pr.2.1 := by
  constructor
  · decide
  · unfold fingerprintPairs
    rw [timeBound_eval_one, freqBound_eval_one]
    decide

theorem stepByAux_length {α : Type} {k : ℕ} (hk : 0 < k) (l : List α) :
    ∀ c, (stepByAux k c l).length = (l.length - c + k - 1) / k := by
  induction l with
  | nil =>
    intro c
    simp only [stepByAux, List.length_nil]
    rw [Nat.div_eq_of_lt (by omega)]
  | cons a rest ih =>
    intro c
    match c with
    | 0 =>
      simp only [stepByAux, List.length_cons]
      rw [ih (k - 1)]
      rcases le_or_lt (k - 1) rest.length with hle | hlt
      · have e : rest.length - (k - 1) + k - 1 = rest.length := by omega
        rw [e]
        have e2 : rest.length + 1 - 0 + k - 1 = rest.length + k := by omega
        rw [e2, Nat.add_div_right _ hk]
      · have e : rest.length - (k - 1) + k - 1 = k - 1 := by omega
        rw [e, Nat.div_eq_of_lt (by omega)]
        have e2 : rest.length + 1 - 0 + k - 1 = rest.length + k := by omega
        rw [e2, Nat.add_div_right _ hk, Nat.div_eq_of_lt (by omega)]
    | c' + 1 =>
      simp only [stepByAux, List.length_cons]
      rw [ih c']
      congr 1
      omega

theorem stepBy_length {α : Type} (l : List α) {k : ℕ} (hk : 0 < k) :
    (stepBy l k).length = (l.length + k - 1) / k := by
  have h := stepByAux_length hk l 0
  simpa [stepBy] using h

theorem stepByAux_mem {α : Type} {k : ℕ} {x : α} {l : List α} :
    ∀ {c}, x ∈ stepByAux k c l → x ∈ l := by
  induction l with
  | nil =>
    intro c h
    simp [stepByAux] at h
  | cons a rest ih =>
    intro c h
    match c with
    | 0 =>
      simp only [stepByAux] at h
      rcases List.mem_cons.mp h with h1 | h1
      · exact h1 ▸ List.mem_cons_self _ _
      · exact List.mem_cons_of_mem _ (ih h1)
    | c' + 1 =>
      simp only [stepByAux] at h
      exact List.mem_cons_of_mem _ (ih h)

theorem windowsOf_length (l : List ℚ) (w : ℕ) :
    (windowsOf l w).length = l.length + 1 - w := by
  simp [windowsOf]

theorem windowsOf_mem {l : List ℚ} {w : ℕ} {frame : List ℚ}
    (h : frame ∈ windowsOf l w) : frame.length = w := by
  unfold windowsOf at h
  rcases List.mem_map.mp h with ⟨i, hi, rfl⟩
  rw [List.mem_range] at hi
  rw [List.length_take, List.length_drop]
  omega

/-- C3: with `w = floor(sample_rate * window_length)`, `0 < w ≤ N` and a
length-preserving in-place FFT, the STFT stage succeeds and its
spectrogram has exactly `floor((N - w)/w) + 1` rows and `w/2 + 1`
columns. -/
theorem read_wav_to_fft_shape (samples : List ℚ) (rate : ℕ) (wl : ℚ)
    (fft : List ℚ → List ℚ) (hfft : ∀ xs, (fft xs).length = xs.length)
    (hw : 0 < windowSizeOf rate wl) (hN : windowSizeOf rate wl ≤ samples.length) :
    ∃ spec, read_wav_to_fft (some samples) rate wl fft = FftResult.ok spec ∧
      spec.length = (samples.length - windowSizeOf rate wl) / windowSizeOf rate wl + 1 ∧
      ∀ row ∈ spec, row.length = windowSizeOf rate wl / 2 + 1 := by
  set w := windowSizeOf rate wl with hwdef
  have hlen : (stepBy (windowsOf samples w) w).length = samples.length / w := by
    rw [stepBy_length _ hw, windowsOf_length]
    congr 1
    omega
  have hne : ¬ stepBy (windowsOf samples w) w = [] := by
    intro hnil
    rw [hnil] at hlen
    have hone : 1 ≤ samples.length / w := (Nat.one_le_div_iff hw).mpr hN
    simp at hlen
    omega
  refine ⟨(stepBy (windowsOf samples w) w).map
      (fun frame => (fft frame).take (w / 2 + 1)), ?_, ?_, ?_⟩
  · show stftCore samples w fft = _
    unfold stftCore
    rw [if_neg (by omega), if_neg hne]
  · rw [List.length_map, hlen]
    exact Nat.div_eq_sub_div hw hN
  · intro row hrow
    rcases List.mem_map.mp hrow with ⟨frame, hframe, rfl⟩
    have hfl : frame.length = w := windowsOf_mem (stepByAux_mem hframe)
    rw [List.length_take, hfft, hfl]
    omega

/-- C3 witness: three samples at rate 2 with window length 1 s give window
size 2, hence one row of 2 columns. -/
theorem read_wav_to_fft_shape_witness :
    0 < windowSizeOf 2 1 ∧ windowSizeOf 2 1 ≤ 3 ∧
    (∃ spec, read_wav_to_fft (some [0, 0, 0]) 2 1 id = FftResult.ok spec ∧
      spec.length = (3 - windowSizeOf 2 1) / windowSizeOf 2 1 + 1 ∧
      ∀ row ∈ spec, row.length = windowSizeOf 2 1 / 2 + 1) := by
  refine ⟨by rw [windowSizeOf_eval_two]; omega, by rw [windowSizeOf_eval_two]; omega, ?_⟩
  exact read_wav_to_fft_shape [0, 0, 0] 2 1 id (fun xs => rfl)
    (by rw [windowSizeOf_eval_two]; omega) (by rw [windowSizeOf_eval_two]; decide)

/-- C9 (amended): the STFT stage returns an error when the samples are not
interpretable as 16-bit PCM and when `0 < window_size` exceeds the number
of samples; but a zero sample rate makes `window_size = skip_size = 0` and
the stage panics with a division by zero instead of returning an error. -/
theorem read_wav_to_fft_failures (samples : List ℚ) (rate : ℕ) (wl : ℚ)
    (fft : List ℚ → List ℚ) :
    (read_wav_to_fft none rate wl fft = FftResult.err) ∧
    (0 < windowSizeOf rate wl → samples.length < windowSizeOf rate wl →
      read_wav_to_fft (some samples) rate wl fft = FftResult.err) ∧
    (rate = 0 → read_wav_to_fft (some samples) rate wl fft = FftResult.panic) := by
  refine ⟨rfl, ?_, ?_⟩
  · intro hw hN
    show stftCore samples (windowSizeOf rate wl) fft = FftResult.err
    unfold stftCore
    have hwin : windowsOf samples (windowSizeOf rate wl) = [] := by
      rw [← List.length_eq_zero, windowsOf_length]
      omega
    rw [if_neg (by omega), hwin]
    rfl
  · intro hrate
    subst hrate
    show stftCore samples (windowSizeOf 0 wl) fft = FftResult.panic
    rw [windowSizeOf_zero_rate]
    rfl

/-- C9 witness: a non-decodable input errs; one sample with window size 3
errs; sample rate 0 panics. -/
theorem read_wav_to_fft_failures_witness :
    (read_wav_to_fft none 2 1 id = FftResult.err) ∧
    (read_wav_to_fft (some [0]) 3 1 id = FftResult.err) ∧
    (read_wav_to_fft (some [0]) 0 1 id = FftResult.panic) := by
  refine ⟨(read_wav_to_fft_failures [] 2 1 id).1, ?_, ?_⟩
  · exact (read_wav_to_fft_failures [0] 3 1 id).2.1
      (by rw [windowSizeOf_eval_three]; omega) (by rw [windowSizeOf_eval_three]; decide)
  · exact (read_wav_to_fft_failures [0] 0 1 id).2.2 rfl

/-- C9 counterexample: at sample rate 0 (window length 0.1 s) the stage
panics — the division by zero on `skip_size = 0` — rather than returning
an error, refuting the claim that a zero sample rate yields a returned
InputError. -/
theorem read_wav_zero_rate_panics :
    read_wav_to_fft (some [0, 0, 0]) 0 (1 / 10) id = FftResult.panic ∧
    FftResult.panic ≠ FftResult.err := by
  constructor
  · show stftCore [0, 0, 0] (windowSizeOf 0 (1 / 10)) id = FftResult.panic
    rw [windowSizeOf_zero_rate]
    rfl
  · decide

theorem specWindowCells_eq_get_square (g : Grid) (t c ks : ℕ) :
    specWindowCells g t c ks = get_square g c t ks := rfl

theorem peaks_row_eq (g : Grid) (ks : ℕ) (thr : ℚ) (y : ℕ) (xs : List ℕ) :
    (xs.filterMap (fun x =>
        if listMax (get_square g x y ks) = g.val y x then some (y, x) else none)).filter
      (fun loc => thr < g.val loc.1 loc.2) =
    (xs.map (fun c => (y, c))).filter
      (fun p => decide (g.val p.1 p.2 = listMax (specWindowCells g p.1 p.2 ks) ∧
        thr < g.val p.1 p.2)) := by
  induction xs with
  | nil => rfl
  | cons x xs ih =>
    by_cases h1 : listMax (get_square g x y ks) = g.val y x
    · by_cases h2 : thr < g.val y x
      · simp [List.filter_cons, h1, h2, ih, specWindowCells_eq_get_square]
      · simp [List.filter_cons, h1, h2, ih, specWindowCells_eq_get_square]
    · simp [List.filter_cons, h1, ih, specWindowCells_eq_get_square, Ne.symm h1]

/-- C4: for every spectrogram, kernel size ≥ 1 and threshold, the peak
stage emits exactly the row-major cells whose value equals the maximum of
the clamped kernel window centered there and exceeds the threshold. -/
theorem peak_picker_correct (g : Grid) (ks : ℕ) (thr : ℚ) (hk : 1 ≤ ks) :
    max_peak_locations g ks thr = peaksSpec g ks thr := by
  unfold max_peak_locations find_equal peaksSpec
  rw [List.filter_flatMap, List.filter_flatMap]
  apply List.flatMap_congr
  intro y hy
  exact peaks_row_eq g ks thr y (List.range g.cols)

/-- C4 witness: on a 2 by 2 spectrogram with one dominant cell, kernel 3
and threshold 0, both characterisations give exactly the peak (0,0). -/
theorem peak_picker_correct_witness :
    1 ≤ 3 ∧
    max_peak_locations ⟨2, 2, fun y x => if y = 0 ∧ x = 0 then 5 else 1⟩ 3 0 =
      peaksSpec ⟨2, 2, fun y x => if y = 0 ∧ x = 0 then 5 else 1⟩ 3 0 ∧
    max_peak_locations ⟨2, 2, fun y x => if y = 0 ∧ x = 0 then 5 else 1⟩ 3 0 = [(0, 0)] := by
  refine ⟨by omega, peak_picker_correct _ 3 0 (by omega), by decide⟩

theorem get_square_kernel_zero (g : Grid) {x y : ℕ} (hx : x < g.cols) (hy : y < g.rows) :
    get_square g x y 0 = [g.val y x] := by
  have e1 : min (x + 0 / 2) (g.cols - 1) = x := by omega
  have e2 : min (y + 0 / 2) (g.rows - 1) = y := by omega
  have e3 : ∀ a : ℕ, rangeIncl a a = [a] := by
    intro a
    unfold rangeIncl
    have h1 : a + 1 - a = 1 := by omega
    have h2 : List.range 1 = [0] := rfl
    rw [h1, h2]
    simp
  show (rangeIncl (y - 0 / 2) (min (y + 0 / 2) (g.rows - 1))).flatMap
      (fun y2 => (rangeIncl (x - 0 / 2) (min (x + 0 / 2) (g.cols - 1))).map
        (fun x2 => g.val y2 x2)) = [g.val y x]
  rw [e1, e2]
  simp only [Nat.zero_div, Nat.sub_zero]
  rw [e3 x, e3 y]
  rfl

theorem kernel_zero_row (g : Grid) (thr : ℚ) {y : ℕ} (hy : y < g.rows) (xs : List ℕ)
    (hxs : ∀ x ∈ xs, x < g.cols) :
    (xs.filterMap (fun x =>
        if (max_filter g 0).val y x = g.val y x then some (y, x) else none)).filter
      (fun loc => thr < g.val loc.1 loc.2) =
    (xs.map (fun c => (y, c))).filter (fun p => thr < g.val p.1 p.2) := by
  induction xs with
  | nil => rfl
  | cons x xs ih =>
    have hx : x < g.cols := hxs x (List.mem_cons_self _ _)
    have hsq : (max_filter g 0).val y x = g.val y x := by
      show listMax (get_square g x y 0) = g.val y x
      rw [get_square_kernel_zero g hx hy]
      rfl
    simp only [List.filterMap_cons, if_pos hsq, List.map_cons, List.filter_cons]
    rw [ih (fun x2 hx2 => hxs x2 (List.mem_cons_of_mem _ hx2))]

/-- C8 (amended): the peak picker never fails.  With kernel size 0 the max
filter is the identity, so the emitted peaks are exactly the row-major
cells above the threshold; and an empty spectrogram (zero rows or zero
columns) yields the empty peak list, not an error. -/
theorem max_filter_never_fails (g : Grid) (ks : ℕ) (thr : ℚ) :
    (max_peak_locations g 0 thr =
      ((List.range g.rows).flatMap (fun t => (List.range g.cols).map (fun c => (t, c)))).filter
        (fun p => thr < g.val p.1 p.2)) ∧
    (g.rows = 0 ∨ g.cols = 0 → max_peak_locations g ks thr = []) := by
  constructor
  · unfold max_peak_locations find_equal
    rw [List.filter_flatMap, List.filter_flatMap]
    apply List.flatMap_congr
    intro y hy
    rw [List.mem_range] at hy
    exact kernel_zero_row g thr hy (List.range g.cols)
      (fun x hx => List.mem_range.mp hx)
  · intro hdeg
    have hnil : ∀ l : List ℕ, (l.flatMap fun _ => ([] : List (ℕ × ℕ))) = [] := by
      intro l
      induction l with
      | nil => rfl
      | cons a l ih => simpa using ih
    unfold max_peak_locations find_equal
    rcases hdeg with h0 | h0
    · rw [h0]
      rfl
    · rw [h0]
      simp only [List.range_zero, List.filterMap_nil]
      rw [hnil]
      rfl

/-- C8 witness: a 1 by 2 spectrogram with kernel 0 emits every cell above
the threshold, and a spectrogram with zero rows emits nothing. -/
theorem max_filter_never_fails_witness :
    (max_peak_locations ⟨1, 2, fun _ _ => 0⟩ 0 (-1) =
      ((List.range 1).flatMap (fun t => (List.range 2).map (fun c => (t, c)))).filter
        (fun p => (-1 : ℚ) < 0)) ∧
    (max_peak_locations ⟨0, 3, fun _ _ => 0⟩ 7 0 = []) := by
  constructor
  · exact (max_filter_never_fails ⟨1, 2, fun _ _ => 0⟩ 7 (-1)).1
  · exact (max_filter_never_fails ⟨0, 3, fun _ _ => 0⟩ 7 0).2 (Or.inl rfl)

/-- C8 counterexample: with kernel size 0 the peak picker does not fail —
on a 1 by 2 zero spectrogram with threshold -1 it returns the peak set
[(0,0), (0,1)], refuting the claimed ConfigError. -/
theorem max_filter_kernel_zero_returns_peaks :
    max_peak_locations ⟨1, 2, fun _ _ => 0⟩ 0 (-1) = [(0, 0), (0, 1)] ∧
    max_peak_locations ⟨1, 2, fun _ _ => 0⟩ 0 (-1) ≠ [] := by
  constructor <;> decide

theorem insertRows_ok {tid : ℕ} {failAt : Option ℕ} :
    ∀ {rs : List (ℕ × ℕ)} {i : ℕ} {acc out : List FpRow},
      insertRows tid failAt rs i acc = some out →
      out = acc ++ rs.map (fun r => ⟨r.1, r.2, tid⟩) := by
  intro rs
  induction rs with
  | nil =>
    intro i acc out h
    simp [insertRows] at h
    simp [h.symm]
  | cons r rs ih =>
    intro i acc out h
    unfold insertRows at h
    split at h
    · exact absurd h (by simp)
    · have := ih h
      simpa using this

/-- C5: the fingerprint-replacement transaction, on success, leaves the
target track with exactly the inserted records (as a multiset of
(hash, track_time)) and every other track untouched; on failure it rolls
back, leaving the database unchanged. -/
theorem replace_fingerprints_spec (db : List FpRow) (tid : ℕ)
    (records : List (ℕ × ℕ)) (failAt : Option ℕ) :
    (∀ db2, replace_fingerprints db tid records failAt = Except.ok db2 →
      ((((db2.filter (fun r => r.trackId = tid)).map
        (fun r => (r.hash, r.trackTime)) : List (ℕ × ℕ)) : Multiset (ℕ × ℕ)) =
        (records : Multiset (ℕ × ℕ))) ∧
      ∀ u, u ≠ tid →
        db2.filter (fun r => r.trackId = u) = db.filter (fun r => r.trackId = u)) ∧
    (∀ db2, replace_fingerprints db tid records failAt = Except.error db2 → db2 = db) := by
  constructor
  · intro db2 h
    unfold replace_fingerprints at h
    split at h
    · rename_i out hout
      have hdb2 : db2 = deleteTrackRows db tid ++ records.map (fun r => ⟨r.1, r.2, tid⟩) := by
        have := insertRows_ok hout
        cases h
        exact this
      subst hdb2
      constructor
      · rw [List.filter_append]
        have h1 : (deleteTrackRows db tid).filter (fun r => r.trackId = tid) = [] := by
          apply List.filter_eq_nil_iff.mpr
          intro a ha
          unfold deleteTrackRows at ha
          have := List.of_mem_filter ha
          simpa using this
        have h2 : (records.map (fun r => (⟨r.1, r.2, tid⟩ : FpRow))).filter
            (fun r => r.trackId = tid) = records.map (fun r => ⟨r.1, r.2, tid⟩) := by
          apply List.filter_eq_self.mpr
          intro a ha
          rcases List.mem_map.mp ha with ⟨r, hr, rfl⟩
          simp
        rw [h1, h2]
        simp [List.map_map, Function.comp_def, Prod.mk.eta]
      · intro u hu
        rw [List.filter_append]
        have h2 : (records.map (fun r => (⟨r.1, r.2, tid⟩ : FpRow))).filter
            (fun r => r.trackId = u) = [] := by
          apply List.filter_eq_nil_iff.mpr
          intro a ha
          rcases List.mem_map.mp ha with ⟨r, hr, rfl⟩
          simpa using fun hcontra => hu hcontra.symm
        rw [h2, List.append_nil]
        unfold deleteTrackRows
        rw [List.filter_filter]
        apply List.filter_congr
        intro a ha
        by_cases hau : a.trackId = u
        · simp [hau, hu]
        · simp [hau]
    · simp at h
  · intro db2 h
    unfold replace_fingerprints at h
    split at h
    · simp at h
    · simp at h
      exact h.symm

/-- C5 witness: replacing the fingerprints of track 7 in a two-row store
succeeds and leaves track 7 holding exactly the new record while track 9
is untouched; a failing insert rolls the store back unchanged. -/
theorem replace_fingerprints_spec_witness :
    (((([(⟨3, 4, 9⟩ : FpRow), ⟨5, 6, 7⟩].filter (fun r => r.trackId = 7)).map
      (fun r => (r.hash, r.trackTime)) : List (ℕ × ℕ)) : Multiset (ℕ × ℕ)) =
      ([(5, 6)] : List (ℕ × ℕ))) ∧
    ([(⟨3, 4, 9⟩ : FpRow), ⟨5, 6, 7⟩].filter (fun r => r.trackId = 9) =
      [(⟨1, 2, 7⟩ : FpRow), ⟨3, 4, 9⟩].filter (fun r => r.trackId = 9)) ∧
    ([(⟨1, 2, 7⟩ : FpRow), ⟨3, 4, 9⟩] = [(⟨1, 2, 7⟩ : FpRow), ⟨3, 4, 9⟩]) := by
  refine ⟨?_, ?_, ?_⟩
  · exact ((replace_fingerprints_spec [⟨1, 2, 7⟩, ⟨3, 4, 9⟩] 7 [(5, 6)] none).1
      [⟨3, 4, 9⟩, ⟨5, 6, 7⟩] rfl).1
  · exact ((replace_fingerprints_spec [⟨1, 2, 7⟩, ⟨3, 4, 9⟩] 7 [(5, 6)] none).1
      [⟨3, 4, 9⟩, ⟨5, 6, 7⟩] rfl).2 9 (by omega)
  · exact (replace_fingerprints_spec [⟨1, 2, 7⟩, ⟨3, 4, 9⟩] 7 [(5, 6)] (some 0)).2
      [⟨1, 2, 7⟩, ⟨3, 4, 9⟩] rfl

/-- C6 (amended): `add_track` returns the first matching row's id when one
exists (leaving the table unchanged) and otherwise inserts a fresh row and
returns its assigned id; a second call with the same title returns the
same id and the same table; and a store holding at most one row with the
title still holds at most one afterwards.  (A store that already holds
several rows with the title keeps them all, so the claimed global
"at most one row per title" does not hold for every store state.) -/
theorem add_track_spec {α : Type} [DecidableEq α] (tracks : List (ℕ × α)) (title : α) :
    (∀ id, selectTrack tracks title = some id → add_track tracks title = (tracks, id)) ∧
    (selectTrack tracks title = none →
      add_track tracks title = insertTrack tracks title) ∧
    ((add_track (add_track tracks title).1 title).2 = (add_track tracks title).2 ∧
      (add_track (add_track tracks title).1 title).1 = (add_track tracks title).1) ∧
    ((tracks.filter (fun r => r.2 = title)).length ≤ 1 →
      (((add_track tracks title).1).filter (fun r => r.2 = title)).length ≤ 1) := by
  refine ⟨?_, ?_, ?_, ?_⟩
  · intro id h
    unfold add_track
    rw [h]
  · intro h
    unfold add_track
    rw [h]
  · rcases hsel : selectTrack tracks title with _ | id
    · have h1 : add_track tracks title =
          (tracks ++ [((tracks.map (fun r => r.1)).foldl max 0 + 1, title)],
            (tracks.map (fun r => r.1)).foldl max 0 + 1) := by
        unfold add_track
        rw [hsel]
        rfl
      set n := (tracks.map (fun r => r.1)).foldl max 0 + 1 with hn
      have h3 : tracks.find? (fun r => decide (r.2 = title)) = none := by
        unfold selectTrack at hsel
        exact Option.map_eq_none.mp hsel
      have h2 : selectTrack (tracks ++ [(n, title)]) title = some n := by
        unfold selectTrack
        rw [List.find?_append, h3]
        simp [List.find?]
      have h4 : add_track (tracks ++ [(n, title)]) title = (tracks ++ [(n, title)], n) := by
        unfold add_track
        rw [h2]
      have h5 : (add_track tracks title).1 = tracks ++ [(n, title)] := by
        rw [h1]
      rw [h5, h4, h1]
      exact ⟨rfl, rfl⟩
    · have h1 : add_track tracks title = (tracks, id) := by
        unfold add_track
        rw [hsel]
      have h5 : (add_track tracks title).1 = tracks := by
        rw [h1]
      rw [h5]
      exact ⟨rfl, h5⟩
  · intro hcount
    rcases hsel : selectTrack tracks title with _ | id
    · have h1 : add_track tracks title =
          (tracks ++ [((tracks.map (fun r => r.1)).foldl max 0 + 1, title)],
            (tracks.map (fun r => r.1)).foldl max 0 + 1) := by
        unfold add_track
        rw [hsel]
        rfl
      set n := (tracks.map (fun r => r.1)).foldl max 0 + 1 with hn
      rw [h1]
      have hfil : tracks.filter (fun r => r.2 = title) = [] := by
        apply List.filter_eq_nil_iff.mpr
        intro a ha
        unfold selectTrack at hsel
        have h3 := Option.map_eq_none.mp hsel
        have h6 := List.find?_eq_none.mp h3 a ha
        simpa using h6
      show ((tracks ++ [(n, title)]).filter (fun r => r.2 = title)).length ≤ 1
      rw [List.filter_append, hfil]
      simp
    · have h1 : add_track tracks title = (tracks, id) := by
        unfold add_track
        rw [hsel]
      rw [h1]
      exact hcount

/-- C6 witness: on a store holding title 0 at id 3, `add_track` returns
id 3 unchanged; on the empty store it inserts and returns id 1; two calls
on the empty store agree; and the single-row count stays at most one. -/
theorem add_track_spec_witness :
    (add_track [(3, 0)] 0 = ([(3, 0)], 3)) ∧
    (add_track ([] : List (ℕ × ℕ)) 0 = insertTrack [] 0) ∧
    ((add_track (add_track ([] : List (ℕ × ℕ)) 0).1 0).2 =
      (add_track ([] : List (ℕ × ℕ)) 0).2) ∧
    ((((add_track ([] : List (ℕ × ℕ)) 0).1).filter (fun r => r.2 = 0)).length ≤ 1) := by
  refine ⟨?_, ?_, ?_, ?_⟩
  · exact (add_track_spec [(3, 0)] 0).1 3 rfl
  · exact (add_track_spec ([] : List (ℕ × ℕ)) 0).2.1 rfl
  · exact (add_track_spec ([] : List (ℕ × ℕ)) 0).2.2.1.1
  · exact (add_track_spec ([] : List (ℕ × ℕ)) 0).2.2.2 (by decide)

/-- C6 counterexample: on a store already holding two rows titled 0 (the
schema has no UNIQUE constraint on title), two `add_track` calls leave
both rows in place, so the claimed "at most one tracks row with that
title" after two calls is false for that store state. -/
theorem add_track_duplicate_titles :
    ¬ (((add_track (add_track [(1, 0), (2, 0)] 0).1 0).1.filter
      (fun r : ℕ × ℕ => r.2 = 0)).length ≤ 1) := by
  decide

theorem foldlMax_spec (x : ℕ × ℕ) (l : List (ℕ × ℕ)) :
    (l.foldl (fun best y => if best.2 ≤ y.2 then y else best) x) ∈ x :: l ∧
    x.2 ≤ (l.foldl (fun best y => if best.2 ≤ y.2 then y else best) x).2 ∧
    ∀ q ∈ l, q.2 ≤ (l.foldl (fun best y => if best.2 ≤ y.2 then y else best) x).2 := by
  induction l generalizing x with
  | nil => exact ⟨List.mem_cons_self _ _, le_refl _, by simp⟩
  | cons y l ih =>
    simp only [List.foldl_cons]
    obtain ⟨m1, m2, m3⟩ := ih (if x.2 ≤ y.2 then y else x)
    refine ⟨?_, ?_, ?_⟩
    · rcases List.mem_cons.mp m1 with h | h
      · rw [h]
        by_cases hxy : x.2 ≤ y.2
        · simp [hxy]
        · simp [hxy]
      · exact List.mem_cons_of_mem _ (List.mem_cons_of_mem _ h)
    · calc x.2 ≤ (if x.2 ≤ y.2 then y else x).2 := by
            by_cases hxy : x.2 ≤ y.2 <;> simp [hxy]
        _ ≤ _ := m2
    · intro q hq
      rcases List.mem_cons.mp hq with h | h
      · subst h
        calc q.2 ≤ (if x.2 ≤ q.2 then q else x).2 := by
              by_cases hxy : x.2 ≤ q.2 <;> simp [hxy] <;> omega
          _ ≤ _ := m2
      · exact m3 q h

theorem maxByKeyLast_spec {l : List (ℕ × ℕ)} {p : ℕ × ℕ}
    (h : maxByKeyLast l = some p) : p ∈ l ∧ ∀ q ∈ l, q.2 ≤ p.2 := by
  match l with
  | [] => exact absurd h (by simp [maxByKeyLast])
  | x :: l =>
    have hp : p = l.foldl (fun best y => if best.2 ≤ y.2 then y else best) x := by
      unfold maxByKeyLast at h
      exact (Option.some.inj h).symm
    obtain ⟨m1, m2, m3⟩ := foldlMax_spec x l
    subst hp
    refine ⟨m1, ?_⟩
    intro q hq
    rcases List.mem_cons.mp hq with h2 | h2
    · rw [h2]
      exact m2
    · exact m3 q h2

theorem binsInsert_keys (bins : List (ℕ × ℕ)) (o : ℕ) :
    (binsInsert bins o).map Prod.fst =
      if bins.any (fun p => p.1 = o) then bins.map Prod.fst
      else bins.map Prod.fst ++ [o] := by
  unfold binsInsert
  split
  · rw [List.map_map]
    congr 1
    funext p
    by_cases h : p.1 = o <;> simp [h]
  · simp

theorem binsOf_valid (offs : List ℕ) : validEnum offs (binsOf offs) := by
  induction offs using List.reverseRecOn with
  | nil => exact ⟨by simp [binsOf], by simp, by simp [binsOf]⟩
  | append_singleton offs o ih =>
    have hstep : binsOf (offs ++ [o]) = binsInsert (binsOf offs) o := by
      unfold binsOf
      rw [List.foldl_append]
      rfl
    obtain ⟨hnd, hmem, hcnt⟩ := ih
    rw [hstep]
    by_cases hin : (binsOf offs).any (fun p => p.1 = o)
    · refine ⟨?_, ?_, ?_⟩
      · rw [binsInsert_keys, if_pos hin]
        exact hnd
      · intro x hx
        rw [binsInsert_keys, if_pos hin]
        rcases List.mem_append.mp hx with hx | hx
        · exact hmem x hx
        · simp at hx
          subst hx
          rcases List.any_eq_true.mp hin with ⟨p, hp, hpo⟩
          simp at hpo
          rw [← hpo]
          exact List.mem_map_of_mem Prod.fst hp
      · intro p hp
        unfold binsInsert at hp
        rw [if_pos hin] at hp
        rcases List.mem_map.mp hp with ⟨q, hq, rfl⟩
        obtain ⟨hq1, hq2⟩ := hcnt q hq
        by_cases hqo : q.1 = o
        · rw [if_pos hqo]
          constructor
          · exact List.mem_append_left _ hq1
          · show q.2 + 1 = List.count q.1 (offs ++ [o])
            rw [hqo] at hq2 ⊢
            have hone : List.count o [o] = 1 := by simp
            rw [List.count_append, hone, ← hq2]
        · rw [if_neg hqo]
          constructor
          · exact List.mem_append_left _ hq1
          · rw [List.count_append]
            have hzero : List.count q.1 [o] = 0 := by
              simp [List.count_singleton, Ne.symm hqo]
            omega
    · have hfresh : o ∉ (binsOf offs).map Prod.fst := by
        intro hcontra
        rcases List.mem_map.mp hcontra with ⟨p, hp, hpo⟩
        exact absurd (List.any_eq_true.mpr ⟨p, hp, by simp [hpo]⟩) hin
      have hnotin : o ∉ offs := fun hcontra => hfresh (hmem o hcontra)
      refine ⟨?_, ?_, ?_⟩
      · rw [binsInsert_keys, if_neg hin, List.nodup_append]
        exact ⟨hnd, List.nodup_singleton o, by
          intro a ha hb
          simp at hb
          subst hb
          exact hfresh ha⟩
      · intro x hx
        rw [binsInsert_keys, if_neg hin]
        rcases List.mem_append.mp hx with hx | hx
        · exact List.mem_append_left _ (hmem x hx)
        · simp at hx
          subst hx
          exact List.mem_append_right _ (by simp)
      · intro p hp
        unfold binsInsert at hp
        rw [if_neg hin] at hp
        rcases List.mem_append.mp hp with hp | hp
        · obtain ⟨hp1, hp2⟩ := hcnt p hp
          have hpno : p.1 ≠ o := by
            intro hcontra
            exact absurd (List.any_eq_true.mpr ⟨p, hp, by simp [hcontra]⟩) hin
          constructor
          · exact List.mem_append_left _ hp1
          · rw [List.count_append]
            have hzero : List.count p.1 [o] = 0 := by
              simp [List.count_singleton, Ne.symm hpno]
            omega
        · simp at hp
          subst hp
          constructor
          · exact List.mem_append_right _ (by simp)
          · show (1 : ℕ) = List.count o (offs ++ [o])
            rw [List.count_append]
            have h0 : List.count o offs = 0 := List.count_eq_zero.mpr hnotin
            have h1 : List.count o [o] = 1 := by simp
            omega

theorem trackOffsets_eq {Q : List (ℕ × ℕ)} {rows : List FpRow} {offs : List ℕ}
    (h : trackOffsets Q rows = some offs) :
    (∀ r ∈ rows, qLookup Q r.hash ≠ none) ∧
    offs = rows.filterMap (fun r =>
      match qLookup Q r.hash with
      | none => none
      | some st => if st ≤ r.trackTime then some (r.trackTime - st) else none) := by
  induction rows generalizing offs with
  | nil =>
    simp [trackOffsets] at h
    exact ⟨by simp, by simp [h.symm]⟩
  | cons r rs ih =>
    unfold trackOffsets at h
    rcases hq : qLookup Q r.hash with _ | st
    · rw [hq] at h
      exact absurd h (by simp)
    · rw [hq] at h
      rcases hrec : trackOffsets Q rs with _ | rest
      · rw [hrec] at h
        exact absurd h (by simp)
      · rw [hrec] at h
        have hoffs : offs = if st ≤ r.trackTime then (r.trackTime - st) :: rest else rest :=
          (Option.some.inj h).symm
        obtain ⟨ih1, ih2⟩ := ih hrec
        constructor
        · intro r2 hr2
          rcases List.mem_cons.mp hr2 with h2 | h2
          · rw [h2, hq]
            simp
          · exact ih1 r2 h2
        · rw [List.filterMap_cons, hq]
          by_cases hle : st ≤ r.trackTime
          · simp only [if_pos hle]
            rw [hoffs, if_pos hle, ih2]
          · simp only [if_neg hle]
            rw [hoffs, if_neg hle, ih2]

/-- C2 (amended): histogram scoring per candidate — every returned row's
hash resolves in the query map, the recorded offsets are exactly
track_time − sample_time for the rows with track_time ≥ sample_time
(other rows are skipped), the insertion-ordered histogram is a valid
enumeration, and under every valid hash-map enumeration the reported
count is the maximal bin count with the reported offset attaining it.
The tie-break among equally maximal offsets depends on the unspecified
`HashMap` iteration order, so the lowest offset is not guaranteed. -/
theorem match_histogram_scoring (Q : List (ℕ × ℕ)) (rows : List FpRow) (offs : List ℕ)
    (h : trackOffsets Q rows = some offs) :
    (∀ r ∈ rows, qLookup Q r.hash ≠ none) ∧
    offs = rows.filterMap (fun r =>
      match qLookup Q r.hash with
      | none => none
      | some st => if st ≤ r.trackTime then some (r.trackTime - st) else none) ∧
    validEnum offs (binsOf offs) ∧
    ∀ e, validEnum offs e → ∀ p, maxByKeyLast e = some p →
      p.1 ∈ offs ∧ p.2 = offs.count p.1 ∧ ∀ o ∈ offs, offs.count o ≤ p.2 := by
  obtain ⟨h1, h2⟩ := trackOffsets_eq h
  refine ⟨h1, h2, binsOf_valid offs, ?_⟩
  intro e he p hp
  obtain ⟨hnd, hmem, hcnt⟩ := he
  obtain ⟨hpin, hple⟩ := maxByKeyLast_spec hp
  obtain ⟨hp1, hp2⟩ := hcnt p hpin
  refine ⟨hp1, hp2, ?_⟩
  intro o ho
  rcases List.mem_map.mp (hmem o ho) with ⟨q, hq, rfl⟩
  calc List.count q.1 offs = q.2 := ((hcnt q hq).2).symm
    _ ≤ p.2 := hple q hq

/-- C2 witness: two matching rows of track 7 at track times 0 and 5 with
both sample times 0 give offsets 0 and 5; the insertion-ordered histogram
is a valid enumeration and the score it selects, (5, 1), attains the
maximal bin count 1. -/
theorem match_histogram_scoring_witness :
    (∀ r ∈ [(⟨1, 0, 7⟩ : FpRow), ⟨2, 5, 7⟩], qLookup [(1, 0), (2, 0)] r.hash ≠ none) ∧
    ([0, 5] : List ℕ) = [(⟨1, 0, 7⟩ : FpRow), ⟨2, 5, 7⟩].filterMap (fun r =>
      match qLookup [(1, 0), (2, 0)] r.hash with
      | none => none
      | some st => if st ≤ r.trackTime then some (r.trackTime - st) else none) ∧
    validEnum [0, 5] (binsOf [0, 5]) ∧
    ((5, 1).1 ∈ ([0, 5] : List ℕ) ∧ (5, 1).2 = ([0, 5] : List ℕ).count (5, 1).1 ∧
      ∀ o ∈ ([0, 5] : List ℕ), ([0, 5] : List ℕ).count o ≤ (5, 1).2) := by
  obtain ⟨w1, w2, w3, w4⟩ :=
    match_histogram_scoring [(1, 0), (2, 0)] [⟨1, 0, 7⟩, ⟨2, 5, 7⟩] [0, 5] rfl
  exact ⟨w1, w2, w3, w4 (binsOf [0, 5]) w3 (5, 1) rfl⟩

/-- C2 counterexample: offsets 0 and 5 both occur once, so both tie for
the maximal count; under the valid enumeration [(0,1),(5,1)] — which is
exactly the insertion-ordered histogram the code can produce —
`max_by_key` selects offset 5, not the lowest tied offset 0.  The claimed
"lowest offset wins" tie-break is therefore false. -/
theorem match_tiebreak_not_lowest :
    trackOffsets [(1, 0), (2, 0)] [⟨1, 0, 7⟩, ⟨2, 5, 7⟩] = some [0, 5] ∧
    validEnum [0, 5] [(0, 1), (5, 1)] ∧
    maxByKeyLast [(0, 1), (5, 1)] = some (5, 1) ∧
    ([0, 5] : List ℕ).count 0 = ([0, 5] : List ℕ).count 5 ∧ (0 : ℕ) < 5 := by
  refine ⟨rfl, by decide, rfl, by decide, by decide⟩

/-- C7: an empty query fingerprint map yields no candidates and the
matcher returns success with an empty result, not an error. -/
theorem match_sample_empty_query (db : List FpRow) :
    match_sample db [] = MatchResult.ok [] := by
  unfold match_sample
  simp only [List.map_nil]
  unfold candidateTracks
  have h : db.filter (fun r => r.hash ∈ ([] : List ℕ)) = [] := by
    apply List.filter_eq_nil_iff.mpr
    intro a ha
    simp
  rw [h]
  rfl

/-- C10: a store whose only matching row has track_time 0 against a query
anchored at time 3 produces, for that candidate, an empty offset
histogram — every row is skipped because track_time < sample_time — and
the matcher hits the panic of `unwrap` on `max_by_key` of an empty
iterator, even though the query map is non-empty. -/
theorem match_sample_scoring_panics :
    match_sample [⟨5, 0, 1⟩] [(5, 3)] = MatchResult.panic ∧
    ([(5, 3)] : List (ℕ × ℕ)) ≠ [] := by
  exact ⟨rfl, by decide⟩
